import Mathlib

/-!
Verification of the progressive-disclosure form wizard
(`fastmcp_wizard`: `models.FormStep`, `manager.WizardManager`,
`exceptions.McpError`).

The wizard walks an ordered list of steps over a stateless protocol.
Per-step state lives in a session store keyed by `wizard_id`; the user is
asked questions through an elicitation adapter that returns one of
accept / decline / cancel / an unknown action, or raises a validation
error.  We embed `WizardManager.execute` as a deterministic interpreter:
the adapter's behaviour is a `script`, a list of outcomes consumed one per
elicitation call, and the interpreter records a trace of every call it
makes together with every `set_state` write, so that the spec's
observable properties (what was asked, in which order, what was
persisted) become statements about the trace.
-/

namespace FastmcpWizard

/-- Answer payloads (`result.data` in the source) are opaque to the
manager; it never inspects them, so a plain string models them. -/
abbrev Value := String

/-- A Python dict `{step_id: value}`, as an association list with unique
keys maintained by `dictUpd`. -/
abbrev AnswerMap := List (String × Value)

/-- Dict lookup: first binding of the key, if any. -/
def dictGet : AnswerMap → String → Option Value
  | [], _ => none
  | (k', v) :: rest, k => if k' = k then some v else dictGet rest k

/-- Dict assignment `m[k] = v`: replace in place when the key exists,
append otherwise (Python dict semantics). -/
def dictUpd : AnswerMap → String → Value → AnswerMap
  | [], k, v => [(k, v)]
  | (k', v') :: rest, k, v =>
      if k' = k then (k, v) :: rest else (k', v') :: dictUpd rest k v

/-- Left fold of dict assignments: the map `m` after writing every pair of
`l` in order. -/
def applyAll (m : AnswerMap) (l : List (String × Value)) : AnswerMap :=
  l.foldl (fun m p => dictUpd m p.1 p.2) m

/-- The successive values of `m` after each write of `l` in order: the
argument of each `set_state` call a run performs while accepting `l`. -/
def storeTrail (m : AnswerMap) : List (String × Value) → List AnswerMap
  | [] => []
  | p :: l => dictUpd m p.1 p.2 :: storeTrail (dictUpd m p.1 p.2) l

/-- One elicitation step (`models.FormStep`).  The `schema` field is
opaque to the manager (it is passed to `ctx.elicit` unexamined), so an
optional tag stands in for `Optional[Type[Any]]`. -/
structure FormStep where
  step_id : String
  message : String
  schema : Option String := none
  condition : Option (AnswerMap → Bool) := none
  is_required : Bool := true

/-- The wizard (`manager.WizardManager`): an identifier and the ordered
step registry. -/
structure WizardManager where
  wizard_id : String
  steps : List FormStep := []

/-- `WizardManager.add_step`: append to the registry, unconditionally (the
source performs no validation and returns `self` for chaining). -/
def WizardManager.add_step (w : WizardManager) (s : FormStep) : WizardManager :=
  { w with steps := w.steps ++ [s] }

/-- One outcome of a `ctx.elicit` call: the `result.action` string
(`accept` carrying `result.data`, `decline`, `cancel`, or any unknown
action), or a raised pydantic `ValidationError` carrying `(loc, msg)`
pairs. -/
inductive ElicitResult where
  | accept (data : Value)
  | decline
  | cancel
  | otherAction (action : String)
  | invalid (errors : List (String × String))
deriving DecidableEq, Repr

/-- Record of one `ctx.elicit` call: which step issued it (`idx` is the
step's position in the registry), the step's original `message` (`base`),
the prompt actually passed (`message`), the schema passed, the step's
required flag, and the outcome the adapter produced for this call. -/
structure Ask where
  idx : Nat
  step_id : String
  base : String
  message : String
  schema : Option String
  req : Bool
  outcome : ElicitResult
deriving DecidableEq, Repr

/-- The re-prompt built after a `ValidationError`:
`f"\x7bstep.message\x7d\n\nValidation Error(s):\n\x7berror_details\x7d\n\nPlease correct your input."`
where `error_details` joins one item per error with the separator
`"\\n"` — in the Python source that literal is a backslash followed by
`n`, not a newline, and it is embedded here exactly as the code produces
it. -/
def buildRetryMessage (base : String) (errs : List (String × String)) : String :=
  base ++ "\n\nValidation Error(s):\n" ++
    String.intercalate "\\n" (errs.map (fun e => "- " ++ e.1 ++ ": " ++ e.2)) ++
    "\n\nPlease correct your input."

/-- Result of the per-step `while True` validation loop. -/
inductive StepRes where
  | accepted (data : Value)
  | declinedOptional
  | fatal (code : Int) (msg : String)
  | hang
deriving DecidableEq, Repr

/-- Output of the per-step loop: its result, the unconsumed tail of the
adapter script, and the elicitation calls it made. -/
structure LoopOut where
  res : StepRes
  remaining : List ElicitResult
  asks : List Ask
deriving DecidableEq, Repr

/-- The `while True` loop of `WizardManager.execute` for one step: call
`ctx.elicit`, dispatch on `result.action`, and on a `ValidationError`
rebuild the prompt from the step's original message and loop.  An empty
script means the adapter never returns (`hang`): the awaited call is
still outstanding. -/
def stepLoop (step : FormStep) (i : Nat) (msg : String) :
    List ElicitResult → LoopOut
  | [] => ⟨.hang, [], []⟩
  | o :: rest =>
    let a : Ask :=
      ⟨i, step.step_id, step.message, msg, step.schema, step.is_required, o⟩
    match o with
    | .accept d => ⟨.accepted d, rest, [a]⟩
    | .decline =>
        if step.is_required then
          ⟨.fatal (-32600) ("Required step '" ++ step.step_id ++ "' declined."),
            rest, [a]⟩
        else ⟨.declinedOptional, rest, [a]⟩
    | .cancel => ⟨.fatal (-32000) "Workflow aborted by user cancellation.", rest, [a]⟩
    | .otherAction _ =>
        ⟨.fatal (-32603) "Internal error: Received unknown elicitation action.",
          rest, [a]⟩
    | .invalid errs =>
        let out := stepLoop step i (buildRetryMessage step.message errs) rest
        ⟨out.res, out.remaining, a :: out.asks⟩

/-- Overall result of `execute`: the returned answer map, a raised
`McpError (code, message)`, or a run still suspended on the adapter. -/
inductive ExecResult where
  | ok (answers : AnswerMap)
  | err (code : Int) (message : String)
  | hang
deriving DecidableEq, Repr

/-- Whether the run returned normally. -/
def ExecResult.isOk : ExecResult → Bool
  | .ok _ => true
  | _ => false

/-- Observable outcome of a run: the result, the trace of elicitation
calls in order, the `(step_id, data)` pairs accepted in order, the
arguments of the `set_state` calls in order, and the steps skipped
because their condition evaluated to false (position and `step_id`). -/
structure ExecOut where
  result : ExecResult
  asks : List Ask
  accepts : List (String × Value)
  sets : List AnswerMap
  condSkips : List (Nat × String)
deriving DecidableEq, Repr

/-- The source's progressive-disclosure test
`step.condition and not step.condition(session_data)`: true exactly when a
condition is present and evaluates to false on the current answers. -/
def condBlocks (step : FormStep) (answers : AnswerMap) : Bool :=
  match step.condition with
  | some c => !(c answers)
  | none => false

/-- The `for step in self.steps` loop of `WizardManager.execute`, from
position `i`, with the current `session_data` (`answers`) and the adapter
script.  Mirrors the source: skip a step whose `step_id` is already in
`session_data`; skip a step whose condition evaluates false; otherwise
run the validation loop; on accept, write the answer and persist
immediately; on optional decline, continue; on a fatal outcome, raise.
After the loop, persist `{}` and return `session_data`. -/
def execFrom : List FormStep → Nat → AnswerMap → List ElicitResult → ExecOut
  | [], _, answers, _ => ⟨.ok answers, [], [], [[]], []⟩
  | step :: rest, i, answers, script =>
    if (dictGet answers step.step_id).isSome then
      execFrom rest (i + 1) answers script
    else if condBlocks step answers then
      let out := execFrom rest (i + 1) answers script
      { out with condSkips := (i, step.step_id) :: out.condSkips }
    else
      let lo := stepLoop step i step.message script
      match lo.res with
      | .accepted d =>
          let answers2 := dictUpd answers step.step_id d
          let out := execFrom rest (i + 1) answers2 lo.remaining
          { result := out.result
            asks := lo.asks ++ out.asks
            accepts := (step.step_id, d) :: out.accepts
            sets := answers2 :: out.sets
            condSkips := out.condSkips }
      | .declinedOptional =>
          let out := execFrom rest (i + 1) answers lo.remaining
          { out with asks := lo.asks ++ out.asks }
      | .fatal c m => ⟨.err c m, lo.asks, [], [], []⟩
      | .hang => ⟨.hang, lo.asks, [], [], []⟩

/-- `WizardManager.execute`, with the session store's entry for this
wizard (`loaded`, the value `ctx.get_state(wizard_id)` yields, where the
source's `or \x7b\x7d` collapses an absent entry to the empty map) and the
adapter script made explicit. -/
def WizardManager.execute (w : WizardManager) (loaded : AnswerMap)
    (script : List ElicitResult) : ExecOut :=
  execFrom w.steps 0 loaded script

/-- The session-store entry after a run: the argument of the last
`set_state` call, or the pre-existing entry when no write happened. -/
def finalStore (loaded : AnswerMap) (out : ExecOut) : AnswerMap :=
  out.sets.getLastD loaded

/-- A dict write never produces the empty map. -/
theorem dictUpd_ne_nil (m : AnswerMap) (k : String) (v : Value) :
    dictUpd m k v ≠ [] := by
  match m with
  | [] => simp [dictUpd]
  | (k', v') :: rest =>
      simp only [dictUpd]
      split <;> simp

/-- Lookup after a dict write. -/
theorem dictGet_dictUpd (m : AnswerMap) (k : String) (v : Value) (k' : String) :
    dictGet (dictUpd m k v) k' = if k = k' then some v else dictGet m k' := by
  induction m with
  | nil =>
      simp only [dictUpd, dictGet]
  | cons p rest ih =>
      obtain ⟨k₀, v₀⟩ := p
      simp only [dictUpd]
      by_cases h : k₀ = k
      · subst h
        simp only [if_pos rfl, dictGet]
        by_cases h' : k₀ = k' <;> simp [h']
      · simp only [if_neg h, dictGet, ih]
        by_cases h' : k₀ = k'
        · subst h'
          have hne : ¬k = k₀ := fun hh => h hh.symm
          simp [hne]
        · simp [h']

/-- A key absent after a write was absent before it. -/
theorem dictGet_none_of_upd_none {m : AnswerMap} {k k' : String} {v : Value}
    (h : dictGet (dictUpd m k v) k' = none) : dictGet m k' = none := by
  rw [dictGet_dictUpd] at h
  split at h
  · exact absurd h (by simp)
  · exact h

theorem applyAll_nil (m : AnswerMap) : applyAll m [] = m := rfl

theorem applyAll_cons (m : AnswerMap) (p : String × Value)
    (l : List (String × Value)) :
    applyAll m (p :: l) = applyAll (dictUpd m p.1 p.2) l := rfl

/-- Writes of other keys do not disturb a lookup. -/
theorem dictGet_applyAll_notMem {k : String} :
    ∀ (l : List (String × Value)) (m : AnswerMap), k ∉ l.map Prod.fst →
      dictGet (applyAll m l) k = dictGet m k := by
  intro l
  induction l with
  | nil => intro m _; rfl
  | cons p rest ih =>
      intro m hk
      simp only [List.map_cons, List.mem_cons] at hk
      push_neg at hk
      rw [applyAll_cons, ih _ hk.2, dictGet_dictUpd, if_neg (Ne.symm hk.1)]

/-- With pairwise-distinct keys, every written pair is retrievable from the
folded map. -/
theorem dictGet_applyAll_mem {k : String} {v : Value} :
    ∀ (l : List (String × Value)) (m : AnswerMap),
      (l.map Prod.fst).Nodup → (k, v) ∈ l →
      dictGet (applyAll m l) k = some v := by
  intro l
  induction l with
  | nil => intro m _ h; simp at h
  | cons p rest ih =>
      intro m hnd hmem
      simp only [List.map_cons, List.nodup_cons] at hnd
      rcases List.mem_cons.mp hmem with h | h
      · subst h
        rw [applyAll_cons, dictGet_applyAll_notMem _ _ hnd.1,
          dictGet_dictUpd, if_pos rfl]
      · exact ih _ hnd.2 h

/-- The last persisted value of a write trail is the fold of all writes. -/
theorem storeTrail_getLastD :
    ∀ (l : List (String × Value)) (m : AnswerMap),
      (storeTrail m l).getLastD m = applyAll m l := by
  intro l
  induction l with
  | nil => intro m; rfl
  | cons p rest ih =>
      intro m
      rw [storeTrail, List.getLastD_cons, ih, applyAll_cons]

/-- A key absent from the base map and from every write stays absent from
every persisted value of the trail. -/
theorem dictGet_storeTrail_none {k : String} :
    ∀ (l : List (String × Value)) (m : AnswerMap),
      dictGet m k = none → k ∉ l.map Prod.fst →
      ∀ m' ∈ storeTrail m l, dictGet m' k = none := by
  intro l
  induction l with
  | nil => intro m _ _ m' hm'; simp [storeTrail] at hm'
  | cons p rest ih =>
      intro m hm hk m' hm'
      simp only [List.map_cons, List.mem_cons] at hk
      push_neg at hk
      rw [storeTrail] at hm'
      have hbase : dictGet (dictUpd m p.1 p.2) k = none := by
        rw [dictGet_dictUpd, if_neg (Ne.symm hk.1), hm]
      rcases List.mem_cons.mp hm' with h | h
      · subst h; exact hbase
      · exact ih _ hbase hk.2 m' h

/-- Every persisted value of a write trail is a nonempty map. -/
theorem mem_storeTrail_ne_nil :
    ∀ (l : List (String × Value)) (m : AnswerMap),
      ∀ m' ∈ storeTrail m l, m' ≠ [] := by
  intro l
  induction l with
  | nil => intro m m' hm'; simp [storeTrail] at hm'
  | cons p rest ih =>
      intro m m' hm'
      rw [storeTrail] at hm'
      rcases List.mem_cons.mp hm' with h | h
      · subst h; exact dictUpd_ne_nil _ _ _
      · exact ih _ m' h

/-- Every call the per-step loop makes carries that step's position,
identifier, original message, schema and required flag. -/
theorem stepLoop_asks_fields (step : FormStep) (i : Nat) :
    ∀ (script : List ElicitResult) (msg : String),
      ∀ a ∈ (stepLoop step i msg script).asks,
        a.idx = i ∧ a.step_id = step.step_id ∧ a.base = step.message ∧
          a.schema = step.schema ∧ a.req = step.is_required := by
  intro script
  induction script with
  | nil => intro msg a ha; simp [stepLoop] at ha
  | cons o rest ih =>
      intro msg a ha
      match o with
      | .accept d =>
          simp only [stepLoop, List.mem_singleton] at ha
          subst ha; exact ⟨rfl, rfl, rfl, rfl, rfl⟩
      | .decline =>
          simp only [stepLoop] at ha
          split at ha <;>
            · simp only [List.mem_singleton] at ha
              subst ha; exact ⟨rfl, rfl, rfl, rfl, rfl⟩
      | .cancel =>
          simp only [stepLoop, List.mem_singleton] at ha
          subst ha; exact ⟨rfl, rfl, rfl, rfl, rfl⟩
      | .otherAction s =>
          simp only [stepLoop, List.mem_singleton] at ha
          subst ha; exact ⟨rfl, rfl, rfl, rfl, rfl⟩
      | .invalid errs =>
          simp only [stepLoop, List.mem_cons] at ha
          rcases ha with ha | ha
          · subst ha; exact ⟨rfl, rfl, rfl, rfl, rfl⟩
          · exact ih _ a ha

/-- Dispatch of the per-step loop on the outcome recorded at position `j`
of its call trace: a non-`invalid` outcome is final — it is the last call
of the loop and it fixes the loop's result exactly as the source's
`accept` / `decline` / `cancel` branches do. -/
theorem stepLoop_dispatch (step : FormStep) (i : Nat) :
    ∀ (script : List ElicitResult) (msg : String) (j : Nat) (a : Ask),
      (stepLoop step i msg script).asks[j]? = some a →
      (∀ d, a.outcome = .accept d →
          (stepLoop step i msg script).res = .accepted d ∧
          (stepLoop step i msg script).asks.length = j + 1) ∧
      (a.outcome = .decline → step.is_required = true →
          (stepLoop step i msg script).res =
            .fatal (-32600) ("Required step '" ++ step.step_id ++ "' declined.") ∧
          (stepLoop step i msg script).asks.length = j + 1) ∧
      (a.outcome = .decline → step.is_required = false →
          (stepLoop step i msg script).res = .declinedOptional ∧
          (stepLoop step i msg script).asks.length = j + 1) ∧
      (a.outcome = .cancel →
          (stepLoop step i msg script).res =
            .fatal (-32000) "Workflow aborted by user cancellation." ∧
          (stepLoop step i msg script).asks.length = j + 1) := by
  intro script
  induction script with
  | nil => intro msg j a ha; simp [stepLoop] at ha
  | cons o rest ih =>
      intro msg j a ha
      match o with
      | .accept d =>
          match j with
          | 0 =>
              simp only [stepLoop, List.getElem?_cons_zero, Option.some.injEq] at ha
              subst ha
              refine ⟨?_, ?_, ?_, ?_⟩ <;> intros <;> simp_all [stepLoop]
          | j' + 1 =>
              simp [stepLoop] at ha
      | .decline =>
          by_cases hreq : step.is_required = true
          · match j with
            | 0 =>
                simp only [stepLoop, if_pos hreq, List.getElem?_cons_zero,
                  Option.some.injEq] at ha
                subst ha
                refine ⟨?_, ?_, ?_, ?_⟩ <;> intros <;> simp_all [stepLoop]
            | j' + 1 =>
                simp [stepLoop, hreq] at ha
          · match j with
            | 0 =>
                simp only [stepLoop, if_neg hreq, List.getElem?_cons_zero,
                  Option.some.injEq] at ha
                subst ha
                refine ⟨?_, ?_, ?_, ?_⟩ <;> intros <;> simp_all [stepLoop]
            | j' + 1 =>
                simp [stepLoop, hreq] at ha
      | .cancel =>
          match j with
          | 0 =>
              simp only [stepLoop, List.getElem?_cons_zero, Option.some.injEq] at ha
              subst ha
              refine ⟨?_, ?_, ?_, ?_⟩ <;> intros <;> simp_all [stepLoop]
          | j' + 1 =>
              simp [stepLoop] at ha
      | .otherAction s =>
          match j with
          | 0 =>
              simp only [stepLoop, List.getElem?_cons_zero, Option.some.injEq] at ha
              subst ha
              refine ⟨?_, ?_, ?_, ?_⟩ <;> intros <;> simp_all [stepLoop]
          | j' + 1 =>
              simp [stepLoop] at ha
      | .invalid errs =>
          match j with
          | 0 =>
              simp only [stepLoop, List.getElem?_cons_zero, Option.some.injEq] at ha
              subst ha
              refine ⟨?_, ?_, ?_, ?_⟩ <;> intros <;> simp_all
          | j' + 1 =>
              simp only [stepLoop, List.getElem?_cons_succ] at ha
              have h := ih (buildRetryMessage step.message errs) j' a ha
              obtain ⟨h1, h2, h3, h4⟩ := h
              refine ⟨?_, ?_, ?_, ?_⟩
              · intro d hd
                obtain ⟨hr, hl⟩ := h1 d hd
                refine ⟨by simpa [stepLoop] using hr, ?_⟩
                simp only [stepLoop, List.length_cons]
                omega
              · intro hd hrq
                obtain ⟨hr, hl⟩ := h2 hd hrq
                refine ⟨by simpa [stepLoop] using hr, ?_⟩
                simp only [stepLoop, List.length_cons]
                omega
              · intro hd hrq
                obtain ⟨hr, hl⟩ := h3 hd hrq
                refine ⟨by simpa [stepLoop] using hr, ?_⟩
                simp only [stepLoop, List.length_cons]
                omega
              · intro hd
                obtain ⟨hr, hl⟩ := h4 hd
                refine ⟨by simpa [stepLoop] using hr, ?_⟩
                simp only [stepLoop, List.length_cons]
                omega

/-- Reduction: a step whose `step_id` is already in the session data is
skipped without any observable action. -/
theorem execFrom_cons_already {step : FormStep} {answers : AnswerMap}
    (rest : List FormStep) (i : Nat) (script : List ElicitResult)
    (h : (dictGet answers step.step_id).isSome = true) :
    execFrom (step :: rest) i answers script =
      execFrom rest (i + 1) answers script := by
  rw [execFrom, if_pos h]

/-- Reduction: a step blocked by its condition is recorded as a condition
skip and nothing else happens for it. -/
theorem execFrom_cons_blocked {step : FormStep} {answers : AnswerMap}
    (rest : List FormStep) (i : Nat) (script : List ElicitResult)
    (h : (dictGet answers step.step_id).isSome = false)
    (h2 : condBlocks step answers = true) :
    execFrom (step :: rest) i answers script =
      { execFrom rest (i + 1) answers script with
        condSkips :=
          (i, step.step_id) :: (execFrom rest (i + 1) answers script).condSkips } := by
  rw [execFrom, if_neg (by simp [h]), if_pos h2]

/-- Reduction: an asked step whose loop ends in acceptance writes the
answer, persists it, and continues with the remaining script. -/
theorem execFrom_cons_accepted {step : FormStep} {answers : AnswerMap}
    {script : List ElicitResult} {d : Value}
    (rest : List FormStep) (i : Nat)
    (h : (dictGet answers step.step_id).isSome = false)
    (h2 : condBlocks step answers = false)
    (hres : (stepLoop step i step.message script).res = .accepted d) :
    execFrom (step :: rest) i answers script =
      { result := (execFrom rest (i + 1) (dictUpd answers step.step_id d)
          (stepLoop step i step.message script).remaining).result
        asks := (stepLoop step i step.message script).asks ++
          (execFrom rest (i + 1) (dictUpd answers step.step_id d)
            (stepLoop step i step.message script).remaining).asks
        accepts := (step.step_id, d) ::
          (execFrom rest (i + 1) (dictUpd answers step.step_id d)
            (stepLoop step i step.message script).remaining).accepts
        sets := dictUpd answers step.step_id d ::
          (execFrom rest (i + 1) (dictUpd answers step.step_id d)
            (stepLoop step i step.message script).remaining).sets
        condSkips := (execFrom rest (i + 1) (dictUpd answers step.step_id d)
          (stepLoop step i step.message script).remaining).condSkips } := by
  rw [execFrom, if_neg (by simp [h]), if_neg (by simp [h2])]
  simp only [hres]

/-- Reduction: an asked optional step whose loop ends in a decline records
no answer and continues with the remaining script. -/
theorem execFrom_cons_declined {step : FormStep} {answers : AnswerMap}
    {script : List ElicitResult}
    (rest : List FormStep) (i : Nat)
    (h : (dictGet answers step.step_id).isSome = false)
    (h2 : condBlocks step answers = false)
    (hres : (stepLoop step i step.message script).res = .declinedOptional) :
    execFrom (step :: rest) i answers script =
      { execFrom rest (i + 1) answers (stepLoop step i step.message script).remaining with
        asks := (stepLoop step i step.message script).asks ++
          (execFrom rest (i + 1) answers
            (stepLoop step i step.message script).remaining).asks } := by
  rw [execFrom, if_neg (by simp [h]), if_neg (by simp [h2])]
  simp only [hres]

/-- Reduction: a fatal loop outcome raises the `McpError` and does nothing
further. -/
theorem execFrom_cons_fatal {step : FormStep} {answers : AnswerMap}
    {script : List ElicitResult} {c : Int} {m : String}
    (rest : List FormStep) (i : Nat)
    (h : (dictGet answers step.step_id).isSome = false)
    (h2 : condBlocks step answers = false)
    (hres : (stepLoop step i step.message script).res = .fatal c m) :
    execFrom (step :: rest) i answers script =
      ⟨.err c m, (stepLoop step i step.message script).asks, [], [], []⟩ := by
  rw [execFrom, if_neg (by simp [h]), if_neg (by simp [h2])]
  simp only [hres]

/-- Reduction: when the adapter never answers, the run stays suspended. -/
theorem execFrom_cons_hang {step : FormStep} {answers : AnswerMap}
    {script : List ElicitResult}
    (rest : List FormStep) (i : Nat)
    (h : (dictGet answers step.step_id).isSome = false)
    (h2 : condBlocks step answers = false)
    (hres : (stepLoop step i step.message script).res = .hang) :
    execFrom (step :: rest) i answers script =
      ⟨.hang, (stepLoop step i step.message script).asks, [], [], []⟩ := by
  rw [execFrom, if_neg (by simp [h]), if_neg (by simp [h2])]
  simp only [hres]

/-- A constant list of indices is nondecreasing. -/
theorem chain'_le_of_const (l : List Nat) (i : Nat) (h : ∀ x ∈ l, x = i) :
    List.Chain' (· ≤ ·) l := by
  induction l with
  | nil => simp
  | cons x l ih =>
      rw [List.chain'_cons']
      refine ⟨?_, ih fun y hy => h y (by simp [hy])⟩
      intro b hb
      have hx := h x (by simp)
      have hb' := h b (List.mem_cons_of_mem x (List.mem_of_mem_head? hb))
      omega

/-- Concatenating one step's calls (all at position `i`) before later
calls (all at positions past `i`, already nondecreasing) stays
nondecreasing. -/
theorem chain'_le_append_idx {l1 l2 : List Ask} {i : Nat}
    (h1 : ∀ a ∈ l1, a.idx = i)
    (h2 : ∀ a ∈ l2, i + 1 ≤ a.idx)
    (hc : List.Chain' (· ≤ ·) (l2.map Ask.idx)) :
    List.Chain' (· ≤ ·) ((l1 ++ l2).map Ask.idx) := by
  rw [List.map_append]
  apply List.Chain'.append
  · apply chain'_le_of_const _ i
    intro x hx
    rcases List.mem_map.mp hx with ⟨a, ha, rfl⟩
    exact h1 a ha
  · exact hc
  · intro x hx y hy
    rcases List.mem_getLast?_eq_getLast hx with ⟨hne, hxeq⟩
    have hxm : x ∈ l1.map Ask.idx := by
      rw [hxeq]; exact List.getLast_mem hne
    have hym : y ∈ l2.map Ask.idx := List.mem_of_mem_head? hy
    rcases List.mem_map.mp hxm with ⟨a, ha, hax⟩
    rcases List.mem_map.mp hym with ⟨b, hb, hby⟩
    have hia := h1 a ha
    have hib := h2 b hb
    omega

/-- Master invariant of the execution loop, by induction along the
registry.  For a run from position `i` with session data `answers`:
every call is for a step at or past `i` whose identifier was unanswered
when the run began; calls happen in nondecreasing registry order; every
accepted pair was unanswered at the start, names a registered step, and
accepted identifiers are pairwise distinct; a normal return is exactly
the starting data plus the accepted pairs; the persisted values are
exactly the successive partial folds of the accepted pairs, with a final
empty write exactly on normal return; and every condition skip is at or
past `i`, was unanswered at the start, and is never elicited. -/
theorem execFrom_master :
    ∀ (steps : List FormStep) (i : Nat) (answers : AnswerMap)
      (script : List ElicitResult),
      (∀ a ∈ (execFrom steps i answers script).asks,
          i ≤ a.idx ∧ dictGet answers a.step_id = none) ∧
      List.Chain' (· ≤ ·) (((execFrom steps i answers script).asks).map Ask.idx) ∧
      (∀ p ∈ (execFrom steps i answers script).accepts,
          dictGet answers p.1 = none ∧ p.1 ∈ steps.map FormStep.step_id) ∧
      (((execFrom steps i answers script).accepts).map Prod.fst).Nodup ∧
      (∀ ans, (execFrom steps i answers script).result = .ok ans →
          ans = applyAll answers (execFrom steps i answers script).accepts) ∧
      ((execFrom steps i answers script).sets =
        storeTrail answers (execFrom steps i answers script).accepts ++
          (if (execFrom steps i answers script).result.isOk then [[]] else [])) ∧
      (∀ js ∈ (execFrom steps i answers script).condSkips,
          i ≤ js.1 ∧ dictGet answers js.2 = none ∧
          (∀ a ∈ (execFrom steps i answers script).asks, a.idx ≠ js.1)) := by
  intro steps
  induction steps with
  | nil =>
      intro i answers script
      refine ⟨?_, ?_, ?_, ?_, ?_, ?_, ?_⟩ <;>
        simp [execFrom, applyAll, storeTrail, ExecResult.isOk]
  | cons step rest ih =>
      intro i answers script
      by_cases h1 : (dictGet answers step.step_id).isSome = true
      · rw [execFrom_cons_already rest i script h1]
        obtain ⟨m1, m2, m3, m4, m5, m6, m7⟩ := ih (i + 1) answers script
        refine ⟨?_, m2, ?_, m4, m5, m6, ?_⟩
        · intro a ha
          obtain ⟨hi, hg⟩ := m1 a ha
          exact ⟨by omega, hg⟩
        · intro p hp
          obtain ⟨hg, hm⟩ := m3 p hp
          exact ⟨hg, by rw [List.map_cons]; exact List.mem_cons_of_mem _ hm⟩
        · intro js hjs
          obtain ⟨hi, hg, hna⟩ := m7 js hjs
          exact ⟨by omega, hg, hna⟩
      · have hgn : dictGet answers step.step_id = none := by
          cases hx : dictGet answers step.step_id with
          | none => rfl
          | some v => exact absurd (by rw [hx]; rfl) h1
        have h1' : (dictGet answers step.step_id).isSome = false := by
          rw [hgn]; rfl
        by_cases h2 : condBlocks step answers = true
        · rw [execFrom_cons_blocked rest i script h1' h2]
          obtain ⟨m1, m2, m3, m4, m5, m6, m7⟩ := ih (i + 1) answers script
          refine ⟨?_, m2, ?_, m4, m5, m6, ?_⟩
          · intro a ha
            obtain ⟨hi, hg⟩ := m1 a ha
            exact ⟨by omega, hg⟩
          · intro p hp
            obtain ⟨hg, hm⟩ := m3 p hp
            exact ⟨hg, by rw [List.map_cons]; exact List.mem_cons_of_mem _ hm⟩
          · intro js hjs
            rcases List.mem_cons.mp hjs with h | h
            · subst h
              refine ⟨le_refl i, hgn, ?_⟩
              intro a ha
              have := (m1 a ha).1
              omega
            · obtain ⟨hi, hg, hna⟩ := m7 js h
              exact ⟨by omega, hg, hna⟩
        · have h2' : condBlocks step answers = false := by
            cases hx : condBlocks step answers with
            | false => rfl
            | true => exact absurd hx h2
          have hfields := stepLoop_asks_fields step i script step.message
          cases hres : (stepLoop step i step.message script).res with
          | accepted d =>
              rw [execFrom_cons_accepted rest i h1' h2' hres]
              obtain ⟨m1, m2, m3, m4, m5, m6, m7⟩ :=
                ih (i + 1) (dictUpd answers step.step_id d)
                  (stepLoop step i step.message script).remaining
              refine ⟨?_, ?_, ?_, ?_, ?_, ?_, ?_⟩
              · intro a ha
                rcases List.mem_append.mp ha with h | h
                · obtain ⟨hidx, hsid, -, -, -⟩ := hfields a h
                  refine ⟨le_of_eq hidx.symm, ?_⟩
                  rw [hsid]; exact hgn
                · obtain ⟨hi, hg⟩ := m1 a h
                  exact ⟨by omega, dictGet_none_of_upd_none hg⟩
              · exact chain'_le_append_idx (fun a ha => (hfields a ha).1)
                  (fun a ha => (m1 a ha).1) m2
              · intro p hp
                rcases List.mem_cons.mp hp with h | h
                · subst h
                  exact ⟨hgn, by rw [List.map_cons]; exact List.mem_cons_self _ _⟩
                · obtain ⟨hg, hm⟩ := m3 p h
                  exact ⟨dictGet_none_of_upd_none hg,
                    by rw [List.map_cons]; exact List.mem_cons_of_mem _ hm⟩
              · simp only [List.map_cons, List.nodup_cons]
                refine ⟨?_, m4⟩
                intro hmem
                rcases List.mem_map.mp hmem with ⟨p, hp, hfst⟩
                obtain ⟨hg, -⟩ := m3 p hp
                rw [hfst, dictGet_dictUpd, if_pos rfl] at hg
                exact Option.noConfusion hg
              · intro ans hans
                rw [m5 ans hans, applyAll_cons]
              · simp only [m6, storeTrail, List.cons_append]
              · intro js hjs
                obtain ⟨hi, hg, hna⟩ := m7 js hjs
                refine ⟨by omega, dictGet_none_of_upd_none hg, ?_⟩
                intro a ha
                rcases List.mem_append.mp ha with h | h
                · have := (hfields a h).1
                  omega
                · exact hna a h
          | declinedOptional =>
              rw [execFrom_cons_declined rest i h1' h2' hres]
              obtain ⟨m1, m2, m3, m4, m5, m6, m7⟩ :=
                ih (i + 1) answers (stepLoop step i step.message script).remaining
              refine ⟨?_, ?_, ?_, m4, m5, m6, ?_⟩
              · intro a ha
                rcases List.mem_append.mp ha with h | h
                · obtain ⟨hidx, hsid, -, -, -⟩ := hfields a h
                  refine ⟨le_of_eq hidx.symm, ?_⟩
                  rw [hsid]; exact hgn
                · obtain ⟨hi, hg⟩ := m1 a h
                  exact ⟨by omega, hg⟩
              · exact chain'_le_append_idx (fun a ha => (hfields a ha).1)
                  (fun a ha => (m1 a ha).1) m2
              · intro p hp
                obtain ⟨hg, hm⟩ := m3 p hp
                exact ⟨hg, by rw [List.map_cons]; exact List.mem_cons_of_mem _ hm⟩
              · intro js hjs
                obtain ⟨hi, hg, hna⟩ := m7 js hjs
                refine ⟨by omega, hg, ?_⟩
                intro a ha
                rcases List.mem_append.mp ha with h | h
                · have := (hfields a h).1
                  omega
                · exact hna a h
          | fatal c m =>
              rw [execFrom_cons_fatal rest i h1' h2' hres]
              refine ⟨?_, ?_, ?_, ?_, ?_, ?_, ?_⟩
              · intro a ha
                obtain ⟨hidx, hsid, -, -, -⟩ := hfields a ha
                refine ⟨le_of_eq hidx.symm, ?_⟩
                rw [hsid]; exact hgn
              · apply chain'_le_of_const _ i
                intro x hx
                rcases List.mem_map.mp hx with ⟨a, ha, rfl⟩
                exact (hfields a ha).1
              · intro p hp
                simp at hp
              · simp
              · intro ans hans
                exact ExecResult.noConfusion hans
              · simp [storeTrail, ExecResult.isOk]
              · intro js hjs
                simp at hjs
          | hang =>
              rw [execFrom_cons_hang rest i h1' h2' hres]
              refine ⟨?_, ?_, ?_, ?_, ?_, ?_, ?_⟩
              · intro a ha
                obtain ⟨hidx, hsid, -, -, -⟩ := hfields a ha
                refine ⟨le_of_eq hidx.symm, ?_⟩
                rw [hsid]; exact hgn
              · apply chain'_le_of_const _ i
                intro x hx
                rcases List.mem_map.mp hx with ⟨a, ha, rfl⟩
                exact (hfields a ha).1
              · intro p hp
                simp at hp
              · simp
              · intro ans hans
                exact ExecResult.noConfusion hans
              · simp [storeTrail, ExecResult.isOk]
              · intro js hjs
                simp at hjs

/-- Membership from an indexed lookup. -/
theorem mem_of_getElem_some {α : Type _} {l : List α} {n : Nat} {a : α}
    (h : l[n]? = some a) : a ∈ l := by
  obtain ⟨hlt, hget⟩ := List.getElem?_eq_some_iff.mp h
  subst hget
  exact l.getElem_mem hlt

/-- Terminal outcomes, positionally: when the call at position `j` of a
run's trace came back `decline` on a required step, the run raises the
required-step error naming that step and makes no further call; when it
came back `cancel`, the run raises the cancellation error and makes no
further call; when it came back `decline` on an optional step, every
later call is for a strictly later registry position. -/
theorem execFrom_terminal :
    ∀ (steps : List FormStep) (i : Nat) (answers : AnswerMap)
      (script : List ElicitResult) (j : Nat) (a : Ask),
      (execFrom steps i answers script).asks[j]? = some a →
      (a.outcome = .decline → a.req = true →
          (execFrom steps i answers script).result =
            .err (-32600) ("Required step '" ++ a.step_id ++ "' declined.") ∧
          (execFrom steps i answers script).asks.length = j + 1) ∧
      (a.outcome = .cancel →
          (execFrom steps i answers script).result =
            .err (-32000) "Workflow aborted by user cancellation." ∧
          (execFrom steps i answers script).asks.length = j + 1) ∧
      (a.outcome = .decline → a.req = false →
          ∀ k b, (execFrom steps i answers script).asks[k]? = some b → j < k →
            a.idx < b.idx) := by
  intro steps
  induction steps with
  | nil =>
      intro i answers script j a ha
      simp [execFrom] at ha
  | cons step rest ih =>
      intro i answers script j a ha
      by_cases h1 : (dictGet answers step.step_id).isSome = true
      · rw [execFrom_cons_already rest i script h1] at ha ⊢
        exact ih (i + 1) answers script j a ha
      · have hgn : dictGet answers step.step_id = none := by
          cases hx : dictGet answers step.step_id with
          | none => rfl
          | some v => exact absurd (by rw [hx]; rfl) h1
        have h1' : (dictGet answers step.step_id).isSome = false := by
          rw [hgn]; rfl
        by_cases h2 : condBlocks step answers = true
        · simp only [execFrom_cons_blocked rest i script h1' h2] at ha ⊢
          exact ih (i + 1) answers script j a ha
        · have h2' : condBlocks step answers = false := by
            cases hx : condBlocks step answers with
            | false => rfl
            | true => exact absurd hx h2
          have hfields := stepLoop_asks_fields step i script step.message
          cases hres : (stepLoop step i step.message script).res with
          | accepted d =>
              simp only [execFrom_cons_accepted rest i h1' h2' hres] at ha ⊢
              by_cases hj : j < (stepLoop step i step.message script).asks.length
              · have ha' : (stepLoop step i step.message script).asks[j]? = some a := by
                  rw [List.getElem?_append, if_pos hj] at ha
                  exact ha
                obtain ⟨d1, d2, d3, d4⟩ :=
                  stepLoop_dispatch step i script step.message j a ha'
                have hf := hfields a (mem_of_getElem_some ha')
                refine ⟨?_, ?_, ?_⟩
                · intro ho hreq
                  have hsr : step.is_required = true := by
                    rw [← hf.2.2.2.2]; exact hreq
                  have hcontra := (d2 ho hsr).1
                  rw [hres] at hcontra
                  exact StepRes.noConfusion hcontra
                · intro ho
                  have hcontra := (d4 ho).1
                  rw [hres] at hcontra
                  exact StepRes.noConfusion hcontra
                · intro ho hreq k b hkb hjk
                  have hsr : step.is_required = false := by
                    rw [← hf.2.2.2.2]; exact hreq
                  have hcontra := (d3 ho hsr).1
                  rw [hres] at hcontra
                  exact StepRes.noConfusion hcontra
              · have hj' : (stepLoop step i step.message script).asks.length ≤ j := by
                  omega
                have ha' : (execFrom rest (i + 1) (dictUpd answers step.step_id d)
                    (stepLoop step i step.message script).remaining).asks[
                      j - (stepLoop step i step.message script).asks.length]? = some a := by
                  rw [List.getElem?_append, if_neg (by omega)] at ha
                  exact ha
                obtain ⟨t1, t2, t3⟩ := ih (i + 1) (dictUpd answers step.step_id d)
                  (stepLoop step i step.message script).remaining _ a ha'
                refine ⟨?_, ?_, ?_⟩
                · intro ho hreq
                  obtain ⟨hr, hl⟩ := t1 ho hreq
                  refine ⟨hr, ?_⟩
                  rw [List.length_append]
                  omega
                · intro ho
                  obtain ⟨hr, hl⟩ := t2 ho
                  refine ⟨hr, ?_⟩
                  rw [List.length_append]
                  omega
                · intro ho hreq k b hkb hjk
                  have hkb' : (execFrom rest (i + 1) (dictUpd answers step.step_id d)
                      (stepLoop step i step.message script).remaining).asks[
                        k - (stepLoop step i step.message script).asks.length]? = some b := by
                    rw [List.getElem?_append, if_neg (by omega)] at hkb
                    exact hkb
                  exact t3 ho hreq _ b hkb' (by omega)
          | declinedOptional =>
              simp only [execFrom_cons_declined rest i h1' h2' hres] at ha ⊢
              by_cases hj : j < (stepLoop step i step.message script).asks.length
              · have ha' : (stepLoop step i step.message script).asks[j]? = some a := by
                  rw [List.getElem?_append, if_pos hj] at ha
                  exact ha
                obtain ⟨d1, d2, d3, d4⟩ :=
                  stepLoop_dispatch step i script step.message j a ha'
                have hf := hfields a (mem_of_getElem_some ha')
                refine ⟨?_, ?_, ?_⟩
                · intro ho hreq
                  have hsr : step.is_required = true := by
                    rw [← hf.2.2.2.2]; exact hreq
                  have hcontra := (d2 ho hsr).1
                  rw [hres] at hcontra
                  exact StepRes.noConfusion hcontra
                · intro ho
                  have hcontra := (d4 ho).1
                  rw [hres] at hcontra
                  exact StepRes.noConfusion hcontra
                · intro ho hreq k b hkb hjk
                  have hsr : step.is_required = false := by
                    rw [← hf.2.2.2.2]; exact hreq
                  have hlast := (d3 ho hsr).2
                  have hkb' : (execFrom rest (i + 1) answers
                      (stepLoop step i step.message script).remaining).asks[
                        k - (stepLoop step i step.message script).asks.length]? = some b := by
                    rw [List.getElem?_append, if_neg (by omega)] at hkb
                    exact hkb
                  have hbmem := mem_of_getElem_some hkb'
                  have hbidx := ((execFrom_master rest (i + 1) answers
                    (stepLoop step i step.message script).remaining).1 b hbmem).1
                  have haidx := hf.1
                  omega
              · have ha' : (execFrom rest (i + 1) answers
                    (stepLoop step i step.message script).remaining).asks[
                      j - (stepLoop step i step.message script).asks.length]? = some a := by
                  rw [List.getElem?_append, if_neg (by omega)] at ha
                  exact ha
                obtain ⟨t1, t2, t3⟩ := ih (i + 1) answers
                  (stepLoop step i step.message script).remaining _ a ha'
                refine ⟨?_, ?_, ?_⟩
                · intro ho hreq
                  obtain ⟨hr, hl⟩ := t1 ho hreq
                  refine ⟨hr, ?_⟩
                  rw [List.length_append]
                  omega
                · intro ho
                  obtain ⟨hr, hl⟩ := t2 ho
                  refine ⟨hr, ?_⟩
                  rw [List.length_append]
                  omega
                · intro ho hreq k b hkb hjk
                  have hkb' : (execFrom rest (i + 1) answers
                      (stepLoop step i step.message script).remaining).asks[
                        k - (stepLoop step i step.message script).asks.length]? = some b := by
                    rw [List.getElem?_append, if_neg (by omega)] at hkb
                    exact hkb
                  exact t3 ho hreq _ b hkb' (by omega)
          | fatal c m =>
              simp only [execFrom_cons_fatal rest i h1' h2' hres] at ha ⊢
              obtain ⟨d1, d2, d3, d4⟩ :=
                stepLoop_dispatch step i script step.message j a ha
              have hf := hfields a (mem_of_getElem_some ha)
              refine ⟨?_, ?_, ?_⟩
              · intro ho hreq
                have hsr : step.is_required = true := by
                  rw [← hf.2.2.2.2]; exact hreq
                obtain ⟨hr, hl⟩ := d2 ho hsr
                have heq := hres.symm.trans hr
                injection heq with hc hm
                subst hc; subst hm
                refine ⟨?_, hl⟩
                rw [hf.2.1]
              · intro ho
                obtain ⟨hr, hl⟩ := d4 ho
                have heq := hres.symm.trans hr
                injection heq with hc hm
                subst hc; subst hm
                exact ⟨rfl, hl⟩
              · intro ho hreq k b hkb hjk
                have hsr : step.is_required = false := by
                  rw [← hf.2.2.2.2]; exact hreq
                have hcontra := (d3 ho hsr).1
                rw [hres] at hcontra
                exact StepRes.noConfusion hcontra
          | hang =>
              simp only [execFrom_cons_hang rest i h1' h2' hres] at ha ⊢
              obtain ⟨d1, d2, d3, d4⟩ :=
                stepLoop_dispatch step i script step.message j a ha
              have hf := hfields a (mem_of_getElem_some ha)
              refine ⟨?_, ?_, ?_⟩
              · intro ho hreq
                have hsr : step.is_required = true := by
                  rw [← hf.2.2.2.2]; exact hreq
                have hcontra := (d2 ho hsr).1
                rw [hres] at hcontra
                exact StepRes.noConfusion hcontra
              · intro ho
                have hcontra := (d4 ho).1
                rw [hres] at hcontra
                exact StepRes.noConfusion hcontra
              · intro ho hreq k b hkb hjk
                have hsr : step.is_required = false := by
                  rw [← hf.2.2.2.2]; exact hreq
                have hcontra := (d3 ho hsr).1
                rw [hres] at hcontra
                exact StepRes.noConfusion hcontra

/-- The last persisted value of a run, relative to its starting data:
empty on normal return, otherwise the starting data plus everything
accepted before the abort. -/
theorem execFrom_sets_getLastD (steps : List FormStep) (i : Nat)
    (answers : AnswerMap) (script : List ElicitResult) :
    (execFrom steps i answers script).sets.getLastD answers =
      if (execFrom steps i answers script).result.isOk then []
      else applyAll answers (execFrom steps i answers script).accepts := by
  obtain ⟨-, -, -, -, -, m6, -⟩ := execFrom_master steps i answers script
  rw [m6]
  by_cases hk : (execFrom steps i answers script).result.isOk = true
  · rw [if_pos hk, if_pos hk, List.getLastD_concat]
  · have hk' : (execFrom steps i answers script).result.isOk = false := by
      cases hx : (execFrom steps i answers script).result.isOk with
      | false => rfl
      | true => exact absurd hx hk
    rw [hk', if_neg (by simp), if_neg (by simp), List.append_nil,
      storeTrail_getLastD]

/-- Under unique step identifiers, a step the engine skipped because its
condition evaluated false never reaches the final answer map of a normal
return. -/
theorem execFrom_condSkip_absent :
    ∀ (steps : List FormStep) (i : Nat) (answers : AnswerMap)
      (script : List ElicitResult) (j : Nat) (s : String),
      (steps.map FormStep.step_id).Nodup →
      (j, s) ∈ (execFrom steps i answers script).condSkips →
      ∀ ans, (execFrom steps i answers script).result = .ok ans →
        dictGet ans s = none := by
  intro steps
  induction steps with
  | nil =>
      intro i answers script j s hnd hjs
      simp [execFrom] at hjs
  | cons step rest ih =>
      intro i answers script j s hnd hjs ans hans
      rw [List.map_cons, List.nodup_cons] at hnd
      by_cases h1 : (dictGet answers step.step_id).isSome = true
      · rw [execFrom_cons_already rest i script h1] at hjs hans
        exact ih (i + 1) answers script j s hnd.2 hjs ans hans
      · have hgn : dictGet answers step.step_id = none := by
          cases hx : dictGet answers step.step_id with
          | none => rfl
          | some v => exact absurd (by rw [hx]; rfl) h1
        have h1' : (dictGet answers step.step_id).isSome = false := by
          rw [hgn]; rfl
        by_cases h2 : condBlocks step answers = true
        · simp only [execFrom_cons_blocked rest i script h1' h2] at hjs hans
          rcases List.mem_cons.mp hjs with h | h
          · injection h with h₁ h₂
            subst h₂
            obtain ⟨-, -, m3, -, m5, -, -⟩ :=
              execFrom_master rest (i + 1) answers script
            rw [m5 ans hans]
            have hnot : step.step_id ∉
                ((execFrom rest (i + 1) answers script).accepts).map
                Prod.fst := by
              intro hmem
              rcases List.mem_map.mp hmem with ⟨p, hp, hfst⟩
              have := (m3 p hp).2
              rw [hfst] at this
              exact hnd.1 this
            rw [dictGet_applyAll_notMem _ _ hnot]
            exact hgn
          · exact ih (i + 1) answers script j s hnd.2 h ans hans
        · have h2' : condBlocks step answers = false := by
            cases hx : condBlocks step answers with
            | false => rfl
            | true => exact absurd hx h2
          cases hres : (stepLoop step i step.message script).res with
          | accepted d =>
              simp only [execFrom_cons_accepted rest i h1' h2' hres] at hjs hans
              exact ih (i + 1) (dictUpd answers step.step_id d)
                (stepLoop step i step.message script).remaining j s hnd.2 hjs ans hans
          | declinedOptional =>
              simp only [execFrom_cons_declined rest i h1' h2' hres] at hjs hans
              exact ih (i + 1) answers
                (stepLoop step i step.message script).remaining j s hnd.2 hjs ans hans
          | fatal c m =>
              simp only [execFrom_cons_fatal rest i h1' h2' hres] at hjs
              simp at hjs
          | hang =>
              simp only [execFrom_cons_hang rest i h1' h2' hres] at hjs
              simp at hjs

/-- Under unique step identifiers, an optional step the user declined is
recorded nowhere: not in the final answer map of a normal return and not
in any value the run persists. -/
theorem execFrom_optional_decline_absent :
    ∀ (steps : List FormStep) (i : Nat) (answers : AnswerMap)
      (script : List ElicitResult) (j : Nat) (a : Ask),
      (steps.map FormStep.step_id).Nodup →
      (execFrom steps i answers script).asks[j]? = some a →
      a.outcome = .decline → a.req = false →
      (∀ ans, (execFrom steps i answers script).result = .ok ans →
          dictGet ans a.step_id = none) ∧
      (∀ m ∈ (execFrom steps i answers script).sets,
          dictGet m a.step_id = none) := by
  intro steps
  induction steps with
  | nil =>
      intro i answers script j a hnd ha
      simp [execFrom] at ha
  | cons step rest ih =>
      intro i answers script j a hnd ha ho hreq
      rw [List.map_cons, List.nodup_cons] at hnd
      by_cases h1 : (dictGet answers step.step_id).isSome = true
      · rw [execFrom_cons_already rest i script h1] at ha ⊢
        exact ih (i + 1) answers script j a hnd.2 ha ho hreq
      · have hgn : dictGet answers step.step_id = none := by
          cases hx : dictGet answers step.step_id with
          | none => rfl
          | some v => exact absurd (by rw [hx]; rfl) h1
        have h1' : (dictGet answers step.step_id).isSome = false := by
          rw [hgn]; rfl
        by_cases h2 : condBlocks step answers = true
        · simp only [execFrom_cons_blocked rest i script h1' h2] at ha ⊢
          exact ih (i + 1) answers script j a hnd.2 ha ho hreq
        · have h2' : condBlocks step answers = false := by
            cases hx : condBlocks step answers with
            | false => rfl
            | true => exact absurd hx h2
          have hfields := stepLoop_asks_fields step i script step.message
          cases hres : (stepLoop step i step.message script).res with
          | accepted d =>
              simp only [execFrom_cons_accepted rest i h1' h2' hres] at ha ⊢
              by_cases hj : j < (stepLoop step i step.message script).asks.length
              · have ha' : (stepLoop step i step.message script).asks[j]? = some a := by
                  rw [List.getElem?_append, if_pos hj] at ha
                  exact ha
                obtain ⟨-, -, d3, -⟩ :=
                  stepLoop_dispatch step i script step.message j a ha'
                have hf := hfields a (mem_of_getElem_some ha')
                have hsr : step.is_required = false := by
                  rw [← hf.2.2.2.2]; exact hreq
                have hcontra := (d3 ho hsr).1
                rw [hres] at hcontra
                exact StepRes.noConfusion hcontra
              · have ha' : (execFrom rest (i + 1) (dictUpd answers step.step_id d)
                    (stepLoop step i step.message script).remaining).asks[
                      j - (stepLoop step i step.message script).asks.length]? = some a := by
                  rw [List.getElem?_append, if_neg (by omega)] at ha
                  exact ha
                obtain ⟨hAns, hSets⟩ := ih (i + 1) (dictUpd answers step.step_id d)
                  (stepLoop step i step.message script).remaining _ a hnd.2 ha' ho hreq
                refine ⟨hAns, ?_⟩
                intro m hm
                rcases List.mem_cons.mp hm with h | h
                · subst h
                  have hmem := mem_of_getElem_some ha'
                  exact ((execFrom_master rest (i + 1)
                    (dictUpd answers step.step_id d)
                    (stepLoop step i step.message script).remaining).1 a hmem).2
                · exact hSets m h
          | declinedOptional =>
              simp only [execFrom_cons_declined rest i h1' h2' hres] at ha ⊢
              by_cases hj : j < (stepLoop step i step.message script).asks.length
              · have ha' : (stepLoop step i step.message script).asks[j]? = some a := by
                  rw [List.getElem?_append, if_pos hj] at ha
                  exact ha
                have hf := hfields a (mem_of_getElem_some ha')
                obtain ⟨-, -, m3, -, m5, m6, -⟩ :=
                  execFrom_master rest (i + 1) answers
                    (stepLoop step i step.message script).remaining
                have hnot : a.step_id ∉ ((execFrom rest (i + 1) answers
                    (stepLoop step i step.message script).remaining).accepts).map
                    Prod.fst := by
                  intro hmem
                  rcases List.mem_map.mp hmem with ⟨p, hp, hfst⟩
                  have := (m3 p hp).2
                  rw [hfst, hf.2.1] at this
                  exact hnd.1 this
                have hga : dictGet answers a.step_id = none := by
                  rw [hf.2.1]; exact hgn
                refine ⟨?_, ?_⟩
                · intro ans hans
                  rw [m5 ans hans, dictGet_applyAll_notMem _ _ hnot]
                  exact hga
                · intro m hm
                  rw [m6] at hm
                  rcases List.mem_append.mp hm with h | h
                  · exact dictGet_storeTrail_none _ _ hga hnot m h
                  · by_cases hk : (execFrom rest (i + 1) answers
                        (stepLoop step i step.message script).remaining).result.isOk = true
                    · rw [if_pos hk] at h
                      rcases List.mem_singleton.mp h with rfl
                      rfl
                    · rw [if_neg hk] at h
                      exact absurd h (List.not_mem_nil m)
              · have ha' : (execFrom rest (i + 1) answers
                    (stepLoop step i step.message script).remaining).asks[
                      j - (stepLoop step i step.message script).asks.length]? = some a := by
                  rw [List.getElem?_append, if_neg (by omega)] at ha
                  exact ha
                exact ih (i + 1) answers
                  (stepLoop step i step.message script).remaining _ a hnd.2 ha' ho hreq
          | fatal c m =>
              simp only [execFrom_cons_fatal rest i h1' h2' hres] at ha ⊢
              refine ⟨?_, ?_⟩
              · intro ans hans
                exact ExecResult.noConfusion hans
              · intro m' hm'
                exact absurd hm' (List.not_mem_nil m')
          | hang =>
              simp only [execFrom_cons_hang rest i h1' h2' hres] at ha ⊢
              refine ⟨?_, ?_⟩
              · intro ans hans
                exact ExecResult.noConfusion hans
              · intro m' hm'
                exact absurd hm' (List.not_mem_nil m')

/-- Unfolding of `WizardManager.execute`. -/
theorem WizardManager.execute_def (w : WizardManager) (loaded : AnswerMap)
    (script : List ElicitResult) :
    w.execute loaded script = execFrom w.steps 0 loaded script := rfl

/-- C1: `execute` processes steps in registration order (the positions of
the elicitation calls are nondecreasing) and never asks a step whose
`step_id` is already present in the loaded session mapping; a normal
return keeps every loaded binding unchanged.  Consequently, a second
invocation after an aborted or interrupted partial run — whose loaded
mapping is what the first run persisted — asks nothing for the steps the
first run accepted and returns the same values for them. -/
theorem claim1_idempotent_resume (w : WizardManager) (loaded : AnswerMap)
    (script : List ElicitResult) :
    (∀ a ∈ (w.execute loaded script).asks, dictGet loaded a.step_id = none) ∧
    List.Chain' (· ≤ ·) (((w.execute loaded script).asks).map Ask.idx) ∧
    (∀ ans, (w.execute loaded script).result = .ok ans →
        ∀ k v, dictGet loaded k = some v → dictGet ans k = some v) ∧
    (∀ script₂ p, p ∈ (w.execute loaded script).accepts →
        (w.execute loaded script).result.isOk = false →
        (∀ b ∈ (w.execute (finalStore loaded (w.execute loaded script))
            script₂).asks, b.step_id ≠ p.1) ∧
        (∀ ans₂, (w.execute (finalStore loaded (w.execute loaded script))
            script₂).result = .ok ans₂ → dictGet ans₂ p.1 = some p.2)) := by
  simp only [WizardManager.execute_def]
  obtain ⟨m1, m2, m3, m4, m5, m6, m7⟩ := execFrom_master w.steps 0 loaded script
  refine ⟨fun a ha => (m1 a ha).2, m2, ?_, ?_⟩
  · intro ans hans k v hk
    rw [m5 ans hans]
    have hnot : k ∉ ((execFrom w.steps 0 loaded script).accepts).map Prod.fst := by
      intro hmem
      rcases List.mem_map.mp hmem with ⟨p, hp, hfst⟩
      have hpn := (m3 p hp).1
      rw [hfst] at hpn
      rw [hpn] at hk
      exact Option.noConfusion hk
    rw [dictGet_applyAll_notMem _ _ hnot]
    exact hk
  · intro script₂ p hp hnok
    have hfs : finalStore loaded (execFrom w.steps 0 loaded script) =
        applyAll loaded (execFrom w.steps 0 loaded script).accepts := by
      show (execFrom w.steps 0 loaded script).sets.getLastD loaded = _
      rw [execFrom_sets_getLastD, hnok]
      simp
    have hsome : dictGet (finalStore loaded (execFrom w.steps 0 loaded script))
        p.1 = some p.2 := by
      rw [hfs]
      exact dictGet_applyAll_mem _ _ m4 (by simpa using hp)
    refine ⟨?_, ?_⟩
    · intro b hb heq
      have hbnone := ((execFrom_master w.steps 0
        (finalStore loaded (execFrom w.steps 0 loaded script)) script₂).1 b hb).2
      rw [heq, hsome] at hbnone
      exact Option.noConfusion hbnone
    · intro ans₂ hans₂
      obtain ⟨-, -, n3, -, n5, -, -⟩ := execFrom_master w.steps 0
        (finalStore loaded (execFrom w.steps 0 loaded script)) script₂
      rw [n5 ans₂ hans₂]
      have hnot2 : p.1 ∉ ((execFrom w.steps 0
          (finalStore loaded (execFrom w.steps 0 loaded script))
          script₂).accepts).map Prod.fst := by
        intro hmem
        rcases List.mem_map.mp hmem with ⟨q, hq, hfst⟩
        have hqn := (n3 q hq).1
        rw [hfst, hsome] at hqn
        exact Option.noConfusion hqn
      rw [dictGet_applyAll_notMem _ _ hnot2]
      exact hsome

/-- C2: when a step's condition evaluates to false on the answers
collected so far (the engine records such skips with the step's position
and identifier), that step is never passed to the elicitation adapter,
and — under the registry invariant that step identifiers are unique — its
`step_id` is absent from the final answer map of a normal return. -/
theorem claim2_progressive_disclosure (w : WizardManager) (loaded : AnswerMap)
    (script : List ElicitResult) (j : Nat) (s : String)
    (hnd : (w.steps.map FormStep.step_id).Nodup)
    (hskip : (j, s) ∈ (w.execute loaded script).condSkips) :
    (∀ a ∈ (w.execute loaded script).asks, a.idx ≠ j) ∧
    (∀ ans, (w.execute loaded script).result = .ok ans →
        dictGet ans s = none) := by
  simp only [WizardManager.execute_def] at hskip ⊢
  obtain ⟨-, -, -, -, -, -, m7⟩ := execFrom_master w.steps 0 loaded script
  refine ⟨?_, ?_⟩
  · intro a ha
    exact (m7 (j, s) hskip).2.2 a ha
  · exact execFrom_condSkip_absent w.steps 0 loaded script j s hnd hskip

/-- C3: a `decline` outcome on a required step (the trace records, for
each elicitation call, the step's required flag and the outcome) makes
the run raise `McpError` with code `-32600` and the message naming that
step's `step_id`, and no further elicitation call is made: the call trace
ends at that very call. -/
theorem claim3_required_decline_aborts (w : WizardManager) (loaded : AnswerMap)
    (script : List ElicitResult) (j : Nat) (a : Ask)
    (ha : (w.execute loaded script).asks[j]? = some a)
    (ho : a.outcome = .decline) (hreq : a.req = true) :
    (w.execute loaded script).result =
      .err (-32600) ("Required step '" ++ a.step_id ++ "' declined.") ∧
    (w.execute loaded script).asks.length = j + 1 := by
  simp only [WizardManager.execute_def] at ha ⊢
  exact (execFrom_terminal w.steps 0 loaded script j a ha).1 ho hreq

/-- C4: a `cancel` outcome at any call — whatever the step's required
flag or position — aborts the whole run with `McpError` code `-32000`
and the cancellation message, no further call is made, and the session
entry is never cleared: the empty mapping is not among the persisted
writes of such a run. -/
theorem claim4_cancel_is_absolute (w : WizardManager) (loaded : AnswerMap)
    (script : List ElicitResult) (j : Nat) (a : Ask)
    (ha : (w.execute loaded script).asks[j]? = some a)
    (ho : a.outcome = .cancel) :
    (w.execute loaded script).result =
      .err (-32000) "Workflow aborted by user cancellation." ∧
    (w.execute loaded script).asks.length = j + 1 ∧
    [] ∉ (w.execute loaded script).sets := by
  simp only [WizardManager.execute_def] at ha ⊢
  obtain ⟨hr, hl⟩ := (execFrom_terminal w.steps 0 loaded script j a ha).2.1 ho
  refine ⟨hr, hl, ?_⟩
  obtain ⟨-, -, -, -, -, m6, -⟩ := execFrom_master w.steps 0 loaded script
  have hko : (execFrom w.steps 0 loaded script).result.isOk = false := by
    rw [hr]; rfl
  intro hmem
  rw [m6, hko] at hmem
  simp only [List.mem_append] at hmem
  rcases hmem with h | h
  · exact absurd rfl (mem_storeTrail_ne_nil _ _ [] h)
  · simp at h

/-- C5: a `decline` outcome on an optional step (required flag false)
leaves — under unique step identifiers — that step's key absent from the
final answer map of a normal return and from every mapping the run
persists, and execution continues with later steps only: every
elicitation call after the declining one is for a strictly later
registry position. -/
theorem claim5_optional_decline_skips (w : WizardManager) (loaded : AnswerMap)
    (script : List ElicitResult) (j : Nat) (a : Ask)
    (hnd : (w.steps.map FormStep.step_id).Nodup)
    (ha : (w.execute loaded script).asks[j]? = some a)
    (ho : a.outcome = .decline) (hreq : a.req = false) :
    (∀ ans, (w.execute loaded script).result = .ok ans →
        dictGet ans a.step_id = none) ∧
    (∀ m ∈ (w.execute loaded script).sets, dictGet m a.step_id = none) ∧
    (∀ k b, (w.execute loaded script).asks[k]? = some b → j < k →
        a.idx < b.idx) := by
  simp only [WizardManager.execute_def] at ha ⊢
  obtain ⟨hAns, hSets⟩ :=
    execFrom_optional_decline_absent w.steps 0 loaded script j a hnd ha ho hreq
  exact ⟨hAns, hSets,
    (execFrom_terminal w.steps 0 loaded script j a ha).2.2 ho hreq⟩

/-- C6: the persisted values of a run are exactly the successive partial
folds of the accepted answers over the loaded mapping — each accepted
answer is persisted immediately — followed by one final empty write
exactly when the run returns normally; the empty mapping is persisted iff
the run returns normally, and an aborted run leaves every accepted
answer present in the last persisted value. -/
theorem claim6_store_reflects_progress (w : WizardManager) (loaded : AnswerMap)
    (script : List ElicitResult) :
    ((w.execute loaded script).sets =
      storeTrail loaded (w.execute loaded script).accepts ++
        (if (w.execute loaded script).result.isOk then [[]] else [])) ∧
    ([] ∈ (w.execute loaded script).sets ↔
      (w.execute loaded script).result.isOk = true) ∧
    ((w.execute loaded script).result.isOk = false →
      ∀ p ∈ (w.execute loaded script).accepts,
        dictGet (finalStore loaded (w.execute loaded script)) p.1 = some p.2) := by
  simp only [WizardManager.execute_def]
  obtain ⟨-, -, -, m4, -, m6, -⟩ := execFrom_master w.steps 0 loaded script
  refine ⟨m6, ?_, ?_⟩
  · constructor
    · intro hmem
      rw [m6] at hmem
      rcases List.mem_append.mp hmem with h | h
      · exact absurd rfl (mem_storeTrail_ne_nil _ _ [] h)
      · by_cases hk : (execFrom w.steps 0 loaded script).result.isOk = true
        · exact hk
        · rw [if_neg hk] at h
          exact absurd h (List.not_mem_nil [])
    · intro hk
      rw [m6, if_pos hk]
      exact List.mem_append.mpr (Or.inr (by simp))
  · intro hnok p hp
    have hfs : finalStore loaded (execFrom w.steps 0 loaded script) =
        applyAll loaded (execFrom w.steps 0 loaded script).accepts := by
      show (execFrom w.steps 0 loaded script).sets.getLastD loaded = _
      rw [execFrom_sets_getLastD, hnok]
      simp
    rw [hfs]
    exact dictGet_applyAll_mem _ _ m4 (by simpa using hp)

/-- C7: after a fully successful `execute`, the session entry is the
empty mapping (the last persisted write is `{}`), the returned answer
map still contains every accepted answer, and a fresh `execute` with the
session entry the successful run left behind is a run from the empty
mapping — it starts over from the first step. -/
theorem claim7_completion_clears_session (w : WizardManager)
    (loaded : AnswerMap) (script : List ElicitResult) (ans : AnswerMap)
    (hok : (w.execute loaded script).result = .ok ans) :
    finalStore loaded (w.execute loaded script) = [] ∧
    (w.execute loaded script).sets.getLast? = some [] ∧
    (∀ p ∈ (w.execute loaded script).accepts, dictGet ans p.1 = some p.2) ∧
    (∀ script₂, w.execute (finalStore loaded (w.execute loaded script))
        script₂ = w.execute [] script₂) := by
  simp only [WizardManager.execute_def] at hok ⊢
  obtain ⟨-, -, -, m4, m5, m6, -⟩ := execFrom_master w.steps 0 loaded script
  have hkOk : (execFrom w.steps 0 loaded script).result.isOk = true := by
    rw [hok]; rfl
  have hfs : finalStore loaded (execFrom w.steps 0 loaded script) = [] := by
    show (execFrom w.steps 0 loaded script).sets.getLastD loaded = _
    rw [execFrom_sets_getLastD, if_pos hkOk]
  refine ⟨hfs, ?_, ?_, ?_⟩
  · rw [m6, if_pos hkOk]
    exact List.getLast?_concat _
  · intro p hp
    rw [m5 ans hok]
    exact dictGet_applyAll_mem _ _ m4 (by simpa using hp)
  · intro script₂
    rw [hfs]

/-- C8: evaluation at a failing input for the validation re-prompt.  When
an answer fails validation with two field errors, the re-issued prompt is
the original prompt with the error listing appended, but the two error
items are joined by the two-character sequence backslash-`n` (the
source's `"\\n".join(...)`, an escaped backslash), not by a newline: the
errors are not rendered one per line.  The first conjunct evaluates the
run's two prompts; the second exhibits that the produced listing differs
from the one-per-line rendering. -/
theorem claim8_error_listing_not_one_per_line :
    ((WizardManager.mk "deploy"
        [⟨"scale", "Pick scaling options", some "ScaleSchema", none, true⟩]).execute
      []
      [.invalid [("replicas", "value is not a valid integer"),
                 ("regions", "list has too few items")],
       .accept "ok"]).asks.map Ask.message =
      ["Pick scaling options",
       "Pick scaling options\n\nValidation Error(s):\n- replicas: value is not a valid integer\\n- regions: list has too few items\n\nPlease correct your input."] ∧
    ("- replicas: value is not a valid integer\\n- regions: list has too few items" ≠
      "- replicas: value is not a valid integer\n- regions: list has too few items") := by
  constructor
  · rfl
  · decide

/-- C9 counterexample: constructing a step with an empty `step_id` and
registering it twice (a duplicate) raises nothing — there is no
`InvalidStepError` anywhere in the package (`exceptions.py` defines only
`UrlElicitationRequiredError` and `McpError`) — and such a wizard even
executes normally, answering the empty-identifier step. -/
theorem claim9_counterexample :
    (((WizardManager.mk "wiz" []).add_step
        ⟨"", "q1", none, none, true⟩).add_step
        ⟨"", "q1", none, none, true⟩).steps.map FormStep.step_id = ["", ""] ∧
    (((WizardManager.mk "wiz" []).add_step
        ⟨"", "q1", none, none, true⟩).execute [] [.accept "v"]).result =
      .ok [("", "v")] := by
  constructor
  · rfl
  · rfl

/-- C9 (amended): `FormStep` construction and `WizardManager.add_step`
perform no validation at all: any step — empty `step_id`, malformed
schema, duplicate identifier — is registered unconditionally by
appending it to the registry, and the resulting wizard executes without
any construction-time error. -/
theorem claim9_no_construction_validation (wid : String) (s : FormStep) :
    ((WizardManager.mk wid []).add_step s).steps = [s] ∧
    (∀ w : WizardManager, (w.add_step s).steps = w.steps ++ [s]) ∧
    (∀ d : Value, s.condition = none →
      (((WizardManager.mk wid []).add_step s).execute [] [.accept d]).result =
        .ok [(s.step_id, d)]) := by
  refine ⟨rfl, fun w => rfl, ?_⟩
  intro d hcond
  simp [WizardManager.execute_def, WizardManager.add_step, execFrom, dictGet,
    condBlocks, hcond, stepLoop, dictUpd]

/-- C10: `execute` returns the loaded mapping updated only with the newly
accepted answers, so keys in the stored mapping that match no registered
step are returned unchanged — never removed or flagged; and a wizard with
zero registered steps asks nothing, resets the entry to empty, and
returns exactly the previously stored mapping. -/
theorem claim10_stale_keys_passthrough (w : WizardManager) (loaded : AnswerMap)
    (script : List ElicitResult) :
    (∀ ans, (w.execute loaded script).result = .ok ans →
        ans = applyAll loaded (w.execute loaded script).accepts ∧
        (∀ k, k ∉ w.steps.map FormStep.step_id →
            dictGet ans k = dictGet loaded k)) ∧
    (WizardManager.mk w.wizard_id []).execute loaded script =
      ⟨.ok loaded, [], [], [[]], []⟩ := by
  simp only [WizardManager.execute_def]
  obtain ⟨-, -, m3, -, m5, -, -⟩ := execFrom_master w.steps 0 loaded script
  refine ⟨?_, rfl⟩
  intro ans hans
  refine ⟨m5 ans hans, ?_⟩
  intro k hk
  rw [m5 ans hans]
  have hnot : k ∉ ((execFrom w.steps 0 loaded script).accepts).map Prod.fst := by
    intro hmem
    rcases List.mem_map.mp hmem with ⟨p, hp, hfst⟩
    have := (m3 p hp).2
    rw [hfst] at this
    exact hk this
  exact dictGet_applyAll_notMem _ _ hnot

/-- Witness for C1: a two-step wizard aborted by a required decline after
accepting `env`; the resumed run never re-asks `env` and returns the same
value for it, and a run resumed from a partially answered session keeps
the loaded binding in its returned map. -/
theorem claim1_idempotent_resume_witness :
    dictGet [("env", "production"), ("confirm", "ok")] "env" = some "production" ∧
    dictGet [("env", "staging"), ("confirm", "yes")] "env" = some "staging" ∧
    dictGet [("env", "staging")] "confirm" = none := by
  refine ⟨?_, ?_, ?_⟩
  · have h := claim1_idempotent_resume
      (WizardManager.mk "deploy"
        [⟨"env", "Choose environment", some "EnvSchema", none, true⟩,
         ⟨"confirm", "Type ok to confirm", none, none, true⟩])
      [] [.accept "production", .decline]
    have h4 := h.2.2.2 [.accept "ok"] ("env", "production") (by decide) (by decide)
    exact h4.2 [("env", "production"), ("confirm", "ok")] (by decide)
  · have h := claim1_idempotent_resume
      (WizardManager.mk "deploy"
        [⟨"env", "Choose environment", some "EnvSchema", none, true⟩,
         ⟨"confirm", "Type ok to confirm", none, none, true⟩])
      [("env", "staging")] [.accept "yes"]
    exact h.2.2.1 [("env", "staging"), ("confirm", "yes")] (by decide)
      "env" "staging" (by decide)
  · have h := claim1_idempotent_resume
      (WizardManager.mk "deploy"
        [⟨"env", "Choose environment", some "EnvSchema", none, true⟩,
         ⟨"confirm", "Type ok to confirm", none, none, true⟩])
      [("env", "staging")] [.accept "yes"]
    exact h.1 ⟨1, "confirm", "Type ok to confirm", "Type ok to confirm",
      none, true, .accept "yes"⟩ (by decide)

/-- Witness for C2: with `env = staging`, the `scale` step (conditioned
on a production environment) is skipped and absent from the final map. -/
theorem claim2_progressive_disclosure_witness :
    dictGet [("env", "staging"), ("confirm", "done")] "scale" = none := by
  have h := claim2_progressive_disclosure
    (WizardManager.mk "deploy"
      [⟨"env", "Choose environment", some "EnvSchema", none, true⟩,
       ⟨"scale", "Pick scaling", some "ScaleSchema",
         some (fun m => dictGet m "env" == some "production"), true⟩,
       ⟨"confirm", "Type ok", none, none, true⟩])
    [] [.accept "staging", .accept "done"] 1 "scale" (by decide) (by decide)
  exact h.2 [("env", "staging"), ("confirm", "done")] (by decide)

/-- Witness for C3: declining the required `confirm` step raises the
required-step error naming it and stops after that call. -/
theorem claim3_required_decline_aborts_witness :
    ((WizardManager.mk "deploy"
        [⟨"env", "Choose environment", some "EnvSchema", none, true⟩,
         ⟨"confirm", "Type ok to confirm", none, none, true⟩]).execute
      [] [.accept "production", .decline]).result =
      .err (-32600) "Required step 'confirm' declined." ∧
    ((WizardManager.mk "deploy"
        [⟨"env", "Choose environment", some "EnvSchema", none, true⟩,
         ⟨"confirm", "Type ok to confirm", none, none, true⟩]).execute
      [] [.accept "production", .decline]).asks.length = 1 + 1 := by
  have h := claim3_required_decline_aborts
    (WizardManager.mk "deploy"
      [⟨"env", "Choose environment", some "EnvSchema", none, true⟩,
       ⟨"confirm", "Type ok to confirm", none, none, true⟩])
    [] [.accept "production", .decline] 1
    ⟨1, "confirm", "Type ok to confirm", "Type ok to confirm", none, true,
      .decline⟩ (by decide) rfl rfl
  exact h

/-- Witness for C4: a cancel at the second step aborts with the
cancellation error, stops asking, and never clears the session entry. -/
theorem claim4_cancel_is_absolute_witness :
    ((WizardManager.mk "deploy"
        [⟨"env", "Choose environment", some "EnvSchema", none, true⟩,
         ⟨"confirm", "Type ok to confirm", none, none, true⟩]).execute
      [] [.accept "production", .cancel]).result =
      .err (-32000) "Workflow aborted by user cancellation." ∧
    ((WizardManager.mk "deploy"
        [⟨"env", "Choose environment", some "EnvSchema", none, true⟩,
         ⟨"confirm", "Type ok to confirm", none, none, true⟩]).execute
      [] [.accept "production", .cancel]).asks.length = 1 + 1 ∧
    [] ∉ ((WizardManager.mk "deploy"
        [⟨"env", "Choose environment", some "EnvSchema", none, true⟩,
         ⟨"confirm", "Type ok to confirm", none, none, true⟩]).execute
      [] [.accept "production", .cancel]).sets := by
  exact claim4_cancel_is_absolute
    (WizardManager.mk "deploy"
      [⟨"env", "Choose environment", some "EnvSchema", none, true⟩,
       ⟨"confirm", "Type ok to confirm", none, none, true⟩])
    [] [.accept "production", .cancel] 1
    ⟨1, "confirm", "Type ok to confirm", "Type ok to confirm", none, true,
      .cancel⟩ (by decide) rfl

/-- Witness for C5: declining the optional `nickname` step leaves it out
of the final map while execution moves on to the next step. -/
theorem claim5_optional_decline_skips_witness :
    dictGet [("confirm", "ok")] "nickname" = none ∧ (0 : Nat) < 1 := by
  have h := claim5_optional_decline_skips
    (WizardManager.mk "profile"
      [⟨"nickname", "Pick a nickname", none, none, false⟩,
       ⟨"confirm", "Type ok", none, none, true⟩])
    [] [.decline, .accept "ok"] 0
    ⟨0, "nickname", "Pick a nickname", "Pick a nickname", none, false,
      .decline⟩ (by decide) (by decide) rfl rfl
  refine ⟨h.1 [("confirm", "ok")] (by decide), ?_⟩
  exact h.2.2 1
    ⟨1, "confirm", "Type ok", "Type ok", none, true, .accept "ok"⟩
    (by decide) (by decide)

/-- Witness for C6: a run aborted by a required decline keeps the
already-accepted `env` answer in the last persisted value, and the
persisted values of the run are exactly the partial folds of its
accepts. -/
theorem claim6_store_reflects_progress_witness :
    dictGet (finalStore [("old", "1")]
      ((WizardManager.mk "deploy"
          [⟨"env", "Choose environment", some "EnvSchema", none, true⟩,
           ⟨"confirm", "Type ok to confirm", none, none, true⟩]).execute
        [("old", "1")] [.accept "production", .decline])) "env" =
      some "production" ∧
    ((WizardManager.mk "deploy"
        [⟨"env", "Choose environment", some "EnvSchema", none, true⟩,
         ⟨"confirm", "Type ok to confirm", none, none, true⟩]).execute
      [("old", "1")] [.accept "production", .decline]).sets =
      storeTrail [("old", "1")]
        ((WizardManager.mk "deploy"
            [⟨"env", "Choose environment", some "EnvSchema", none, true⟩,
             ⟨"confirm", "Type ok to confirm", none, none, true⟩]).execute
          [("old", "1")] [.accept "production", .decline]).accepts ++
        (if ((WizardManager.mk "deploy"
            [⟨"env", "Choose environment", some "EnvSchema", none, true⟩,
             ⟨"confirm", "Type ok to confirm", none, none, true⟩]).execute
          [("old", "1")] [.accept "production", .decline]).result.isOk
         then [[]] else []) := by
  have h := claim6_store_reflects_progress
    (WizardManager.mk "deploy"
      [⟨"env", "Choose environment", some "EnvSchema", none, true⟩,
       ⟨"confirm", "Type ok to confirm", none, none, true⟩])
    [("old", "1")] [.accept "production", .decline]
  exact ⟨h.2.2 (by decide) ("env", "production") (by decide), h.1⟩

/-- Witness for C7: a successful single-step run clears the session
entry while its returned map still carries the accepted answer. -/
theorem claim7_completion_clears_session_witness :
    finalStore [("stale", "x")]
      ((WizardManager.mk "setup"
          [⟨"env", "Choose environment", some "EnvSchema", none, true⟩]).execute
        [("stale", "x")] [.accept "prod"]) = [] ∧
    dictGet [("stale", "x"), ("env", "prod")] "env" = some "prod" := by
  have h := claim7_completion_clears_session
    (WizardManager.mk "setup"
      [⟨"env", "Choose environment", some "EnvSchema", none, true⟩])
    [("stale", "x")] [.accept "prod"] [("stale", "x"), ("env", "prod")]
    (by decide)
  exact ⟨h.1, h.2.2.1 ("env", "prod") (by decide)⟩

/-- Witness for C9 (amended): a step with an empty identifier registers
and executes without any construction-time failure. -/
theorem claim9_no_construction_validation_witness :
    (((WizardManager.mk "wiz" []).add_step
        ⟨"", "q", none, none, true⟩).execute [] [.accept "v"]).result =
      .ok [("", "v")] := by
  have h := claim9_no_construction_validation "wiz" ⟨"", "q", none, none, true⟩
  exact h.2.2 "v" rfl

/-- Witness for C10: a stale key is returned unchanged by a successful
run, and a zero-step wizard returns the stored mapping and resets the
entry. -/
theorem claim10_stale_keys_passthrough_witness :
    dictGet [("ghost", "7"), ("env", "p")] "ghost" =
      dictGet [("ghost", "7")] "ghost" ∧
    (WizardManager.mk "setup" []).execute [("ghost", "7")] [.accept "p"] =
      ⟨.ok [("ghost", "7")], [], [], [[]], []⟩ := by
  have h := claim10_stale_keys_passthrough
    (WizardManager.mk "setup"
      [⟨"env", "Choose environment", some "EnvSchema", none, true⟩])
    [("ghost", "7")] [.accept "p"]
  refine ⟨?_, h.2⟩
  exact (h.1 [("ghost", "7"), ("env", "p")] (by decide)).2 "ghost" (by decide)

end FastmcpWizard
